import Mathlib

/-!
Verification of the spectral and coordinate-transform analysis pipeline of an
Electrical Signature Analysis (ESA) library.

The Python source (src/signal_processing.py, src/ESA.py) is shallowly embedded:
NumPy arrays become `List ℝ` (or `List ℂ`), vectorised arithmetic becomes
`List.map` / `List.zipWith`, and the one-sided discrete Fourier transform
`np.fft.rfft` / `np.fft.rfftfreq` is embedded by its defining formula over ℂ.
Machine floats are modelled as real numbers; the one place where IEEE special
values (±∞, NaN) are the subject of a claim, a dedicated value type `NF`
models a float as either a finite real or a special value.
-/

open scoped Real
open Complex (I)

noncomputable section

/-- Sample mean, as computed by `np.mean` (sum divided by length; division by
zero is total in Lean, matching the fact that callers only use nonempty data). -/
def npMean (x : List ℝ) : ℝ := x.sum / x.length

/-- Bin `k` of the discrete Fourier transform of a real sequence `x`:
`X_k = Σ_{m<N} x_m · exp(-2πi·k·m/N)`, the formula computed by `np.fft.rfft`. -/
def dftBin (x : List ℝ) (k : ℕ) : ℂ :=
  ∑ m ∈ Finset.range x.length,
    (x.getD m 0 : ℂ) * Complex.exp (-(2 * Real.pi * I * k * m) / x.length)

/-- One-sided FFT `np.fft.rfft`: bins `k = 0 .. N/2` (floor division). -/
def rfft (x : List ℝ) : List ℂ :=
  (List.range (x.length / 2 + 1)).map (dftBin x)

/-- `np.fft.rfftfreq n d`: the one-sided frequency axis `k / (d·n)` for
`k = 0 .. n/2`. -/
def rfftfreq (n : ℕ) (d : ℝ) : List ℝ :=
  (List.range (n / 2 + 1)).map (fun (k : ℕ) => (k : ℝ) / (d * n))

/-- `signal_processing.power_fft`: removes the sample mean, takes the one-sided
FFT, squares the magnitude of every bin, and pairs the result with the
frequency axis `np.fft.rfftfreq(N, d=1/fs)`. -/
def power_fft (signal : List ℝ) (fs : ℝ) : List ℝ × List ℝ :=
  let s := signal.map (fun a => a - npMean signal)
  let fft := (rfft s).map (fun z => Complex.abs z ^ 2)
  let freq := rfftfreq s.length (1 / fs)
  (freq, fft)

/-- Python's built-in `max` over a nonempty sequence, as a left fold. -/
def pyMax (l : List ℝ) : ℝ :=
  match l with
  | [] => 0
  | a :: t => t.foldl max a

/-- `signal_processing.decibel` under the ideal real-number model of floats:
optionally divides by the maximum, then maps `m ↦ 20·log10 m`. -/
def decibel (fft : List ℝ) (normalize : Bool) : List ℝ :=
  (if normalize then fft.map (fun x => x / pyMax fft) else fft).map
    (fun m => 20 * Real.logb 10 m)

/-- An IEEE double at the granularity the decibel claim needs: a finite real
number or one of the special values `+∞`, `-∞`, `NaN`. -/
inductive NF where
  | fin (x : ℝ)
  | pinf
  | ninf
  | nan

/-- Whether a modelled float is finite. -/
def NF.isFinite : NF → Bool
  | .fin _ => true
  | _ => false

/-- IEEE division of finite doubles `x / m` (exact values): division by zero
produces `±∞` or `NaN` instead of raising. -/
def nfDiv (x m : ℝ) : NF :=
  if m = 0 then (if x = 0 then .nan else if 0 < x then .pinf else .ninf)
  else .fin (x / m)

/-- IEEE `log10` on a modelled double: `log10 0 = -∞`, `log10` of a negative
number is `NaN`, and specials propagate (`log10 (+∞) = +∞`, `log10 (-∞) = NaN`). -/
def nfLog10 : NF → NF
  | .fin x => if 0 < x then .fin (Real.logb 10 x) else if x = 0 then .ninf else .nan
  | .pinf => .pinf
  | .ninf => .nan
  | .nan => .nan

/-- Multiplication of a modelled double by the positive constant 20. -/
def nfScale20 : NF → NF
  | .fin x => .fin (20 * x)
  | .pinf => .pinf
  | .ninf => .ninf
  | .nan => .nan

/-- `signal_processing.decibel` under the float model `NF`, used to settle the
claim about non-finite outputs on zero/negative inputs. -/
def decibelF (fft : List ℝ) (normalize : Bool) : List NF :=
  (if normalize then fft.map (fun x => nfDiv x (pyMax fft)) else fft.map NF.fin).map
    (fun v => nfScale20 (nfLog10 v))

/-- `np.fft.irfft`: inverse of the one-sided FFT; for a spectrum of length `M`
the output has length `n = 2·(M-1)`, with the standard hermitian-extension
formula. -/
def irfft (X : List ℂ) : List ℝ :=
  let n := 2 * (X.length - 1)
  (List.range n).map (fun (m : ℕ) =>
    (1 / (n : ℝ)) * ((X.getD 0 0).re + (-1 : ℝ) ^ m * (X.getD (X.length - 1) 0).re
      + 2 * ∑ k ∈ Finset.Ioo 0 (X.length - 1),
          ((X.getD k 0) * Complex.exp (2 * Real.pi * I * (k : ℂ) * (m : ℂ) / (n : ℂ))).re))

/-- `np.hamming`: the Hamming window `0.54 - 0.46·cos(2πm/(M-1))`, with NumPy's
special case of `[1]` for a single-point window. -/
def hamming (M : ℕ) : List ℝ :=
  if M = 1 then [1]
  else (List.range M).map
    (fun (m : ℕ) => 0.54 - 0.46 * Real.cos (2 * Real.pi * m / ((M : ℝ) - 1)))

/-- `signal_processing.power_cepstrum`: computes the squared-magnitude of the
inverse FFT of the log of the squared FFT magnitude, then falls off the end of
the function — Python's bare `return` yields `None`, modelled as `none`. -/
def power_cepstrum (signal : List ℝ) (fs : ℝ) : Option (List ℝ × List ℝ) :=
  let ceps :=
    (irfft (((rfft signal).map (fun z => Real.log (Complex.abs (z ^ 2)))).map
      (fun r => (r : ℂ)))).map (fun t => |t| ^ 2)
  none

/-- `signal_processing.complex_cepstrum`: Hamming-windows the signal, takes the
one-sided FFT, the log magnitude, a second one-sided FFT, and returns the
quefrency axis together with the cepstrum. -/
def complex_cepstrum (signal : List ℝ) (fs : ℝ) : Option (List ℝ × List ℂ) :=
  let frame_size := signal.length
  let windowed_signal := List.zipWith (fun w s => w * s) (hamming frame_size) signal
  let X := rfft windowed_signal
  let log_X := X.map (fun z => Real.log (Complex.abs z))
  let cepstrum := rfft log_X
  let freq_vector := rfftfreq frame_size (1 / fs)
  let df := freq_vector.getD 1 0 - freq_vector.getD 0 0
  let quefrency_vector := rfftfreq log_X.length df
  some (quefrency_vector, cepstrum)

/-- `ESA.correlation`: the absolute value of the Pearson correlation
coefficient `np.corrcoef(x, y)[0, 1]`. -/
def correlation (x y : List ℝ) : ℝ :=
  let cx := x.map (fun a => a - npMean x)
  let cy := y.map (fun a => a - npMean y)
  |(List.zipWith (fun a b => a * b) cx cy).sum /
    (Real.sqrt (List.zipWith (fun a b => a * b) cx cx).sum *
     Real.sqrt (List.zipWith (fun a b => a * b) cy cy).sum)|

/-- `ESA.dq`: fixed-angle two-axis projection with coefficients `√(2/3)`,
`1/√6`, `1/√2`; no mean removal, no trigonometric evaluation. -/
def dq (i_a i_b i_c : List ℝ) : List ℝ × List ℝ :=
  let v1 := Real.sqrt (2 / 3)
  let v2 := 1 / Real.sqrt 6
  let v3 := v2
  let v4 := 1 / Real.sqrt 2
  let v5 := v4
  (List.zipWith (fun d c => d - v3 * c)
     (List.zipWith (fun a b => v1 * a - v2 * b) i_a i_b) i_c,
   List.zipWith (fun b c => v4 * b - v5 * c) i_b i_c)

/-- `ESA.epva`: Enhanced Park's Vector Approach — power spectrum of
`√|i_d + j·i_q|`. -/
def epva (i_d i_q : List ℝ) (fs : ℝ) : List ℝ × List ℝ :=
  let result := List.zipWith (fun a b => Real.sqrt (Complex.abs (a + I * b))) i_d i_q
  power_fft result fs

/-- `ESA.epva` with its default sampling frequency `fs=500`. -/
def epvaDefault (i_d i_q : List ℝ) : List ℝ × List ℝ := epva i_d i_q 500

/-- `ESA.csa`: Current Signature Analysis, an alias for the power spectrum. -/
def csa (signal : List ℝ) (fs : ℝ) : List ℝ × List ℝ := power_fft signal fs

/-- `ESA.csa` with its default sampling frequency `fs=500`. -/
def csaDefault (signal : List ℝ) : List ℝ × List ℝ := csa signal 500

/-- `ESA.vsa`: Voltage Signature Analysis, an alias for the power spectrum. -/
def vsa (signal : List ℝ) (fs : ℝ) : List ℝ × List ℝ := power_fft signal fs

/-- `ESA.vsa` with its default sampling frequency `fs=500`. -/
def vsaDefault (signal : List ℝ) : List ℝ × List ℝ := vsa signal 500

/-- `ESA.mcsa`: Motor Current Signature Analysis, delegating to `csa`. -/
def mcsa (signal : List ℝ) (fs : ℝ) : List ℝ × List ℝ := csa signal fs

/-- `ESA.mcsa` with its default sampling frequency `fs=500`. -/
def mcsaDefault (signal : List ℝ) : List ℝ × List ℝ := mcsa signal 500

/-- `ESA.ipsa`: Instantaneous Power Signature Analysis — power spectrum of
`v_ll · (i_l − mean i_l)`, optionally converted to normalized decibels. -/
def ipsa (v_ll i_l : List ℝ) (fs : ℝ) (norm : Bool) : List ℝ × List ℝ :=
  let p_l := List.zipWith (fun v i => v * i) v_ll (i_l.map (fun i => i - npMean i_l))
  let r := power_fft p_l fs
  (r.1, if norm then decibel r.2 true else r.2)

/-- `ESA.ipsa` with its default arguments `fs=500`, `norm=True`. -/
def ipsaDefault (v_ll i_l : List ℝ) : List ℝ × List ℝ := ipsa v_ll i_l 500 true

/-- One row of the matrix-vector product `D * current` in `ESA.dq0`:
elementwise `u·xa + v·xb + w·xc`. -/
def rowCombo (u v w : ℝ) (xa xb xc : List ℝ) : List ℝ :=
  List.zipWith (fun s c => s + w * c)
    (List.zipWith (fun a b => u * a + v * b) xa xb) xc

/-- `ESA.dq0`: removes each phase's own mean, then applies the rotating Park
matrix at angle `theta`, scaled by `√(2/3)` (the second assignment to `D` in
the source, which overwrites the first). -/
def dq0 (i_a i_b i_c : List ℝ) (theta : ℝ) : List ℝ × List ℝ × List ℝ :=
  let s := Real.sqrt (2 / 3)
  let ca := i_a.map (fun a => a - npMean i_a)
  let cb := i_b.map (fun a => a - npMean i_b)
  let cc := i_c.map (fun a => a - npMean i_c)
  (rowCombo (s * Real.cos theta) (s * Real.cos (theta - 2 * Real.pi / 3))
      (s * Real.cos (theta - 4 * Real.pi / 3)) ca cb cc,
   rowCombo (s * (-Real.sin theta)) (s * (-Real.sin (theta - 2 * Real.pi / 3)))
      (s * (-Real.sin (theta - 4 * Real.pi / 3))) ca cb cc,
   rowCombo (s * (1 / 2)) (s * (1 / 2)) (s * (1 / 2)) ca cb cc)


/-- A list sum as a `Finset.range` sum over `getD`. -/
theorem list_sum_eq_range_sum (x : List ℝ) :
    x.sum = ∑ k ∈ Finset.range x.length, x.getD k 0 := by
  induction x with
  | nil => simp
  | cons a t ih =>
      rw [List.sum_cons, ih, List.length_cons, Finset.sum_range_succ']
      simp [add_comm]

/-- `getD` of a mapped range evaluates the function at the index. -/
theorem getD_range_map {β : Type} (f : ℕ → β) (M k : ℕ) (d : β) (h : k < M) :
    ((List.range M).map f).getD k d = f k := by
  have hl : k < ((List.range M).map f).length := by simpa using h
  rw [List.getD_eq_getElem _ _ hl]
  simp

/-- `getD` of a mapped list pushes through the map on valid indices. -/
theorem getD_map_of_lt {α β : Type} (f : α → β) (l : List α) (k : ℕ) (d : β) (e : α)
    (h : k < l.length) : (l.map f).getD k d = f (l.getD k e) := by
  have hl : k < (l.map f).length := by simpa using h
  rw [List.getD_eq_getElem _ _ hl, List.getD_eq_getElem _ _ h, List.getElem_map]

/-- `getD` of a `zipWith` combines the two components on valid indices. -/
theorem getD_zipWith_of_lt {α β γ : Type} (f : α → β → γ) (x : List α) (y : List β)
    (k : ℕ) (d : γ) (da : α) (db : β) (hx : k < x.length) (hy : k < y.length) :
    (List.zipWith f x y).getD k d = f (x.getD k da) (y.getD k db) := by
  have hl : k < (List.zipWith f x y).length := by
    rw [List.length_zipWith]; exact lt_min hx hy
  rw [List.getD_eq_getElem _ _ hl, List.getD_eq_getElem _ _ hx, List.getD_eq_getElem _ _ hy,
    List.getElem_zipWith]

/-- The sum of a `zipWith` of equal-length lists as a `Finset.range` sum. -/
theorem sum_zipWith_eq (f : ℝ → ℝ → ℝ) (x y : List ℝ) (h : x.length = y.length) :
    (List.zipWith f x y).sum = ∑ k ∈ Finset.range x.length, f (x.getD k 0) (y.getD k 0) := by
  rw [list_sum_eq_range_sum]
  have hlen : (List.zipWith f x y).length = x.length := by
    rw [List.length_zipWith, h, min_self]
  rw [hlen]
  refine Finset.sum_congr rfl (fun k hk => ?_)
  rw [Finset.mem_range] at hk
  exact getD_zipWith_of_lt f x y k 0 0 0 hk (h ▸ hk)

/-- Frequency-axis arithmetic: `k / ((1/fs)·N) = k·fs/N` for `fs ≠ 0`. -/
theorem rfftfreq_bin_value (k N : ℕ) (fs : ℝ) (h : fs ≠ 0) :
    (k : ℝ) / (1 / fs * N) = k * fs / N := by
  by_cases hN : (N : ℝ) = 0
  · simp [hN]
  · field_simp

/-- The frequency axis has `n/2 + 1` entries. -/
theorem rfftfreq_length (n : ℕ) (d : ℝ) : (rfftfreq n d).length = n / 2 + 1 := by
  simp [rfftfreq]

/-- Entry `k` of the frequency axis is `k / (d·n)`. -/
theorem rfftfreq_getD (n k : ℕ) (d : ℝ) (h : k < n / 2 + 1) :
    (rfftfreq n d).getD k 0 = (k : ℝ) / (d * n) := by
  unfold rfftfreq
  exact getD_range_map _ _ _ _ h

/-- The frequency component of `power_fft` is `rfftfreq` of the signal length. -/
theorem power_fft_fst (x : List ℝ) (fs : ℝ) :
    (power_fft x fs).1 = rfftfreq x.length (1 / fs) := by
  simp [power_fft]

/-- The power component of `power_fft` is the squared magnitude of the DFT of
the mean-removed signal, bin by bin. -/
theorem power_fft_snd (x : List ℝ) (fs : ℝ) :
    (power_fft x fs).2 =
      (List.range (x.length / 2 + 1)).map
        (fun k => Complex.abs (dftBin (x.map (fun a => a - npMean x)) k) ^ 2) := by
  simp [power_fft, rfft, List.map_map]

/-- CLAIM C1: `power_fft` subtracts the sample mean, squares the magnitude of
every one-sided DFT bin, and returns the frequency axis `k·fs/N` for
`k = 0..⌊N/2⌋`; every power value is a real number ≥ 0; for even `N` there are
exactly `N/2 + 1` bins spanning `[0, fs/2]`, and a 2-sample signal yields
exactly the 2 bins `[0, fs/2]`. -/
theorem C1_power_fft_one_sided_power_spectrum (x : List ℝ) (fs : ℝ)
    (hN : 2 ≤ x.length) (hfs : 0 < fs) :
    ((power_fft x fs).1).length = x.length / 2 + 1 ∧
    ((power_fft x fs).2).length = x.length / 2 + 1 ∧
    (∀ k, k < x.length / 2 + 1 →
      (power_fft x fs).2.getD k 0 =
        Complex.abs (dftBin (x.map (fun a => a - npMean x)) k) ^ 2) ∧
    (∀ k, k < x.length / 2 + 1 →
      (power_fft x fs).1.getD k 0 = k * fs / x.length) ∧
    (∀ k, k < x.length / 2 + 1 → 0 ≤ (power_fft x fs).2.getD k 0) ∧
    (x.length % 2 = 0 →
      (power_fft x fs).1.getD 0 0 = 0 ∧
      (power_fft x fs).1.getD (x.length / 2) 0 = fs / 2) ∧
    (x.length = 2 → (power_fft x fs).1 = [0, fs / 2]) := by
  have hfs0 : fs ≠ 0 := ne_of_gt hfs
  have hfreq := power_fft_fst x fs
  have hpow := power_fft_snd x fs
  refine ⟨?_, ?_, ?_, ?_, ?_, ?_, ?_⟩
  · rw [hfreq, rfftfreq_length]
  · rw [hpow]; simp
  · intro k hk
    rw [hpow, getD_range_map _ _ _ _ hk]
  · intro k hk
    rw [hfreq, rfftfreq_getD _ _ _ hk]
    exact rfftfreq_bin_value k x.length fs hfs0
  · intro k hk
    rw [hpow, getD_range_map _ _ _ _ hk]
    positivity
  · intro heven
    obtain ⟨t, ht⟩ := (Nat.even_iff.mpr heven)
    have htN : x.length = 2 * t := by omega
    have ht1 : 1 ≤ t := by omega
    constructor
    · rw [hfreq, rfftfreq_getD _ _ _ (Nat.succ_pos _)]
      simp
    · have hk : x.length / 2 < x.length / 2 + 1 := Nat.lt_succ_self _
      rw [hfreq, rfftfreq_getD _ _ _ hk,
        rfftfreq_bin_value (x.length / 2) x.length fs hfs0, htN]
      have h2t : (2 * t) / 2 = t := by omega
      rw [h2t]
      have htR : (t : ℝ) ≠ 0 := Nat.cast_ne_zero.mpr (by omega)
      push_cast
      field_simp
      ring
  · intro h2
    rw [hfreq, h2]
    unfold rfftfreq
    have hr : List.range (2 / 2 + 1) = [0, 1] := by decide
    rw [hr]
    simp
    field_simp

/-- Witness for C1 at the concrete input `x = [1, 2]`, `fs = 2`. -/
theorem C1_witness :
    2 ≤ [(1 : ℝ), 2].length ∧ (0 : ℝ) < 2 ∧
    (((power_fft [(1 : ℝ), 2] 2).1).length = [(1 : ℝ), 2].length / 2 + 1 ∧
    ((power_fft [(1 : ℝ), 2] 2).2).length = [(1 : ℝ), 2].length / 2 + 1 ∧
    (∀ k, k < [(1 : ℝ), 2].length / 2 + 1 →
      (power_fft [(1 : ℝ), 2] 2).2.getD k 0 =
        Complex.abs (dftBin ([(1 : ℝ), 2].map (fun a => a - npMean [(1 : ℝ), 2])) k) ^ 2) ∧
    (∀ k, k < [(1 : ℝ), 2].length / 2 + 1 →
      (power_fft [(1 : ℝ), 2] 2).1.getD k 0 = k * 2 / [(1 : ℝ), 2].length) ∧
    (∀ k, k < [(1 : ℝ), 2].length / 2 + 1 → 0 ≤ (power_fft [(1 : ℝ), 2] 2).2.getD k 0) ∧
    ([(1 : ℝ), 2].length % 2 = 0 →
      (power_fft [(1 : ℝ), 2] 2).1.getD 0 0 = 0 ∧
      (power_fft [(1 : ℝ), 2] 2).1.getD ([(1 : ℝ), 2].length / 2) 0 = 2 / 2) ∧
    ([(1 : ℝ), 2].length = 2 → (power_fft [(1 : ℝ), 2] 2).1 = [0, 2 / 2])) :=
  ⟨by norm_num, by norm_num,
    C1_power_fft_one_sided_power_spectrum [(1 : ℝ), 2] 2 (by norm_num) (by norm_num)⟩


/-- CLAIM C5 counterexample: `power_fft` on the 1-sample signal `[5]` does not
fail — it returns the full degenerate spectrum `([0], [0])`, so no
`InvalidInputLength` fail-fast behavior exists in the code. -/
theorem C5_counterexample_no_length_check :
    power_fft [(5 : ℝ)] 1 = ([0], [0]) ∧ ((power_fft [(5 : ℝ)] 1).1).length = 1 := by
  have hr1 : List.range 1 = [0] := by decide
  constructor
  · simp [power_fft, rfft, rfftfreq, dftBin, npMean, hr1]
  · rw [power_fft_fst, rfftfreq_length]
    norm_num

/-- CLAIM C5 (amended): the code performs no input validation at all — for any
1-sample signal and any sampling frequency, `power_fft` returns the degenerate
spectrum `([0], [0])` instead of failing fast with an error. -/
theorem C5_amended_no_validation (x fs : ℝ) (hfs : fs ≠ 0) :
    power_fft [x] fs = ([0], [0]) := by
  have hr1 : List.range 1 = [0] := by decide
  simp [power_fft, rfft, rfftfreq, dftBin, npMean, hr1]

/-- Witness for the amended C5 at `x = 7`, `fs = -1` (even a nonpositive
sampling rate is accepted). -/
theorem C5_amended_witness :
    ((-1 : ℝ) ≠ 0) ∧ power_fft [(7 : ℝ)] (-1) = ([0], [0]) :=
  ⟨by norm_num, C5_amended_no_validation 7 (-1) (by norm_num)⟩

/-- CLAIM C9: every diagnostic technique uses the default sampling frequency
500 Hz when the caller does not supply `fs`, and the resulting frequency axis
is built from 500 Hz: entry `k` is `k · 500 / N`. -/
theorem C9_default_sampling_frequency (s d q v i : List ℝ) (k : ℕ)
    (hk : k < (csaDefault s).1.length) :
    csaDefault s = csa s 500 ∧ vsaDefault s = vsa s 500 ∧
    mcsaDefault s = mcsa s 500 ∧ epvaDefault d q = epva d q 500 ∧
    ipsaDefault v i = ipsa v i 500 true ∧
    (csaDefault s).1.getD k 0 = k * 500 / s.length := by
  refine ⟨rfl, rfl, rfl, rfl, rfl, ?_⟩
  have hfst : (csaDefault s).1 = rfftfreq s.length (1 / 500) := power_fft_fst s 500
  rw [hfst] at hk ⊢
  rw [rfftfreq_length] at hk
  rw [rfftfreq_getD _ _ _ hk]
  exact rfftfreq_bin_value k s.length 500 (by norm_num)

/-- Witness for C9 at the concrete input `s = d = q = v = i = [1, 2]`, `k = 1`. -/
theorem C9_witness :
    1 < (csaDefault [(1 : ℝ), 2]).1.length ∧
    (csaDefault [(1 : ℝ), 2] = csa [(1 : ℝ), 2] 500 ∧
     vsaDefault [(1 : ℝ), 2] = vsa [(1 : ℝ), 2] 500 ∧
     mcsaDefault [(1 : ℝ), 2] = mcsa [(1 : ℝ), 2] 500 ∧
     epvaDefault [(1 : ℝ), 2] [(1 : ℝ), 2] = epva [(1 : ℝ), 2] [(1 : ℝ), 2] 500 ∧
     ipsaDefault [(1 : ℝ), 2] [(1 : ℝ), 2] = ipsa [(1 : ℝ), 2] [(1 : ℝ), 2] 500 true ∧
     (csaDefault [(1 : ℝ), 2]).1.getD 1 0 =
       ((1 : ℕ) : ℝ) * 500 / ([(1 : ℝ), 2].length : ℝ)) :=
  have hk : 1 < (csaDefault [(1 : ℝ), 2]).1.length := by
    show 1 < (power_fft [(1 : ℝ), 2] 500).1.length
    rw [power_fft_fst, rfftfreq_length]
    norm_num
  ⟨hk, C9_default_sampling_frequency [(1 : ℝ), 2] [(1 : ℝ), 2] [(1 : ℝ), 2]
    [(1 : ℝ), 2] [(1 : ℝ), 2] 1 hk⟩

/-- The sum of a constant-shifted list. -/
theorem sum_map_add_const (x : List ℝ) (c : ℝ) :
    (x.map (fun a => a + c)).sum = x.sum + x.length * c := by
  induction x with
  | nil => simp
  | cons a t ih =>
      simp [ih]
      ring

/-- The mean of a constant-shifted nonempty list. -/
theorem npMean_map_add (x : List ℝ) (c : ℝ) (h : x.length ≠ 0) :
    npMean (x.map (fun a => a + c)) = npMean x + c := by
  have hR : (x.length : ℝ) ≠ 0 := Nat.cast_ne_zero.mpr h
  unfold npMean
  rw [sum_map_add_const, List.length_map]
  field_simp
  ring

/-- CLAIM C10: `power_fft` is invariant under constant offsets of its input —
the sample mean is removed before the transform, so `power_fft (x + c) fs`
equals `power_fft x fs` exactly (same frequency axis, same power values). -/
theorem C10_power_fft_offset_invariant (x : List ℝ) (c fs : ℝ)
    (hN : 2 ≤ x.length) (hfs : 0 < fs) :
    power_fft (x.map (fun a => a + c)) fs = power_fft x fs := by
  have hlen : (x.map (fun a => a + c)).length = x.length := by simp
  have hdemean : (x.map (fun a => a + c)).map
      (fun a => a - npMean (x.map (fun a => a + c))) =
      x.map (fun a => a - npMean x) := by
    rw [npMean_map_add x c (by omega), List.map_map]
    refine List.map_congr_left (fun a _ => ?_)
    simp
  refine Prod.ext ?_ ?_
  · rw [power_fft_fst, power_fft_fst, hlen]
  · rw [power_fft_snd, power_fft_snd, hlen, hdemean]

/-- Witness for C10 at `x = [1, 2]`, `c = 3`, `fs = 1`. -/
theorem C10_witness :
    2 ≤ [(1 : ℝ), 2].length ∧ (0 : ℝ) < 1 ∧
    power_fft ([(1 : ℝ), 2].map (fun a => a + 3)) 1 = power_fft [(1 : ℝ), 2] 1 :=
  ⟨by norm_num, by norm_num,
    C10_power_fft_offset_invariant [(1 : ℝ), 2] 3 1 (by norm_num) (by norm_num)⟩

/-- CLAIM C2: `power_cepstrum` computes the log-power cepstrum internally but
returns no value — it is `none` for every input, never a
`(quefrencyAxis, cepstrumPower)` pair the way `complex_cepstrum` returns
`some` pair. -/
theorem C2_power_cepstrum_returns_none (signal : List ℝ) (fs : ℝ) :
    power_cepstrum signal fs = none ∧
    (∀ q cp, power_cepstrum signal fs ≠ some (q, cp)) ∧
    (∃ q cp, complex_cepstrum signal fs = some (q, cp)) := by
  refine ⟨rfl, fun q cp hqc => ?_, ?_⟩
  · rw [show power_cepstrum signal fs = none from rfl] at hqc
    exact Option.noConfusion hqc
  · exact ⟨_, _, rfl⟩

/-- Witness for C2 at the concrete input `[1, 2, 3]`, `fs = 4`. -/
theorem C2_witness :
    power_cepstrum [(1 : ℝ), 2, 3] 4 = none ∧
    (∀ q cp, power_cepstrum [(1 : ℝ), 2, 3] 4 ≠ some (q, cp)) ∧
    (∃ q cp, complex_cepstrum [(1 : ℝ), 2, 3] 4 = some (q, cp)) :=
  C2_power_cepstrum_returns_none [(1 : ℝ), 2, 3] 4

/-- CLAIM C3: `dq` is the fixed-angle elementwise projection
`i_d = √(2/3)·a − (1/√6)·b − (1/√6)·c`, `i_q = (1/√2)·b − (1/√2)·c` (no mean
removal, no trigonometric evaluation), and on the sample triple `(1, 0, −1)`
yields `i_d = √(2/3) + 1/√6`. -/
theorem C3_dq_fixed_coefficients (a b c : List ℝ) (k : ℕ)
    (hb : b.length = a.length) (hc : c.length = a.length) (hk : k < a.length) :
    (dq a b c).1.getD k 0 =
      Real.sqrt (2 / 3) * a.getD k 0 - 1 / Real.sqrt 6 * b.getD k 0
        - 1 / Real.sqrt 6 * c.getD k 0 ∧
    (dq a b c).2.getD k 0 =
      1 / Real.sqrt 2 * b.getD k 0 - 1 / Real.sqrt 2 * c.getD k 0 ∧
    (dq [1, 0, -1] [0, 1, -1] [-1, -1, 2]).1.getD 0 0 =
      Real.sqrt (2 / 3) + 1 / Real.sqrt 6 := by
  have hkb : k < b.length := hb ▸ hk
  have hkc : k < c.length := hc ▸ hk
  have hzin : k < (List.zipWith
      (fun x y => Real.sqrt (2 / 3) * x - 1 / Real.sqrt 6 * y) a b).length := by
    rw [List.length_zipWith, hb, min_self]; exact hk
  refine ⟨?_, ?_, ?_⟩
  · simp only [dq]
    rw [getD_zipWith_of_lt _ _ _ _ _ 0 0 hzin hkc,
        getD_zipWith_of_lt _ _ _ _ _ 0 0 hk hkb]
  · simp only [dq]
    rw [getD_zipWith_of_lt _ _ _ _ _ 0 0 hkb hkc]
  · simp [dq, List.zipWith]

/-- Witness for C3 at `a = [1, 0, -1]`, `b = [0, 1, -1]`, `c = [-1, -1, 2]`,
`k = 0`. -/
theorem C3_witness :
    ([(0 : ℝ), 1, -1].length = [(1 : ℝ), 0, -1].length) ∧
    ([(-1 : ℝ), -1, 2].length = [(1 : ℝ), 0, -1].length) ∧
    (0 < [(1 : ℝ), 0, -1].length) ∧
    ((dq [(1 : ℝ), 0, -1] [0, 1, -1] [-1, -1, 2]).1.getD 0 0 =
      Real.sqrt (2 / 3) * [(1 : ℝ), 0, -1].getD 0 0
        - 1 / Real.sqrt 6 * [(0 : ℝ), 1, -1].getD 0 0
        - 1 / Real.sqrt 6 * [(-1 : ℝ), -1, 2].getD 0 0 ∧
    (dq [(1 : ℝ), 0, -1] [0, 1, -1] [-1, -1, 2]).2.getD 0 0 =
      1 / Real.sqrt 2 * [(0 : ℝ), 1, -1].getD 0 0
        - 1 / Real.sqrt 2 * [(-1 : ℝ), -1, 2].getD 0 0 ∧
    (dq [1, 0, -1] [0, 1, -1] [-1, -1, 2]).1.getD 0 0 =
      Real.sqrt (2 / 3) + 1 / Real.sqrt 6) :=
  ⟨by norm_num, by norm_num, by norm_num,
    C3_dq_fixed_coefficients [(1 : ℝ), 0, -1] [0, 1, -1] [-1, -1, 2] 0
      (by norm_num) (by norm_num) (by norm_num)⟩

/-- Elementwise value of one row of the `dq0` matrix product. -/
theorem rowCombo_getD (u v w : ℝ) (xa xb xc : List ℝ) (k : ℕ)
    (hb : xb.length = xa.length) (hc : xc.length = xa.length) (hk : k < xa.length) :
    (rowCombo u v w xa xb xc).getD k 0 =
      u * xa.getD k 0 + v * xb.getD k 0 + w * xc.getD k 0 := by
  have hkb : k < xb.length := hb ▸ hk
  have hkc : k < xc.length := hc ▸ hk
  have hzin : k < (List.zipWith (fun a b => u * a + v * b) xa xb).length := by
    rw [List.length_zipWith, hb, min_self]; exact hk
  unfold rowCombo
  rw [getD_zipWith_of_lt _ _ _ _ _ 0 0 hzin hkc,
      getD_zipWith_of_lt _ _ _ _ _ 0 0 hk hkb]

/-- Elementwise value of a mean-removed list. -/
theorem demean_getD (x : List ℝ) (j : ℕ) (hj : j < x.length) :
    (x.map (fun t => t - npMean x)).getD j 0 = x.getD j 0 - npMean x :=
  getD_map_of_lt _ x j 0 0 hj

/-- CLAIM C4: `dq0` removes each phase's own mean, then applies the rotating
Park matrix at angle `theta` scaled by `√(2/3)` (elementwise formulas for
`i_d`, `i_q`, `i_0` over the mean-removed phases), and for balanced input
(`a + b + c = 0` at every instant) the returned `i_0` is 0 at every sample. -/
theorem C4_dq0_rotating_park (a b c : List ℝ) (theta : ℝ) (k : ℕ)
    (hb : b.length = a.length) (hc : c.length = a.length) (hk : k < a.length) :
    (dq0 a b c theta).1.getD k 0 =
      Real.sqrt (2 / 3) * (Real.cos theta * (a.getD k 0 - npMean a)
        + Real.cos (theta - 2 * Real.pi / 3) * (b.getD k 0 - npMean b)
        + Real.cos (theta - 4 * Real.pi / 3) * (c.getD k 0 - npMean c)) ∧
    (dq0 a b c theta).2.1.getD k 0 =
      Real.sqrt (2 / 3) * (-Real.sin theta * (a.getD k 0 - npMean a)
        + -Real.sin (theta - 2 * Real.pi / 3) * (b.getD k 0 - npMean b)
        + -Real.sin (theta - 4 * Real.pi / 3) * (c.getD k 0 - npMean c)) ∧
    (dq0 a b c theta).2.2.getD k 0 =
      Real.sqrt (2 / 3) * ((a.getD k 0 - npMean a) / 2
        + (b.getD k 0 - npMean b) / 2 + (c.getD k 0 - npMean c) / 2) ∧
    ((∀ j, j < a.length → a.getD j 0 + b.getD j 0 + c.getD j 0 = 0) →
      (dq0 a b c theta).2.2.getD k 0 = 0) := by
  have hkb : k < b.length := hb ▸ hk
  have hkc : k < c.length := hc ▸ hk
  have hlb : (b.map (fun t => t - npMean b)).length =
      (a.map (fun t => t - npMean a)).length := by simp [hb]
  have hlc : (c.map (fun t => t - npMean c)).length =
      (a.map (fun t => t - npMean a)).length := by simp [hc]
  have hka : k < (a.map (fun t => t - npMean a)).length := by simpa using hk
  have hd : (dq0 a b c theta).1.getD k 0 =
      Real.sqrt (2 / 3) * (Real.cos theta * (a.getD k 0 - npMean a)
        + Real.cos (theta - 2 * Real.pi / 3) * (b.getD k 0 - npMean b)
        + Real.cos (theta - 4 * Real.pi / 3) * (c.getD k 0 - npMean c)) := by
    simp only [dq0]
    rw [rowCombo_getD _ _ _ _ _ _ k hlb hlc hka,
      demean_getD a k hk, demean_getD b k hkb, demean_getD c k hkc]
    ring
  have hq : (dq0 a b c theta).2.1.getD k 0 =
      Real.sqrt (2 / 3) * (-Real.sin theta * (a.getD k 0 - npMean a)
        + -Real.sin (theta - 2 * Real.pi / 3) * (b.getD k 0 - npMean b)
        + -Real.sin (theta - 4 * Real.pi / 3) * (c.getD k 0 - npMean c)) := by
    simp only [dq0]
    rw [rowCombo_getD _ _ _ _ _ _ k hlb hlc hka,
      demean_getD a k hk, demean_getD b k hkb, demean_getD c k hkc]
    ring
  have h0 : (dq0 a b c theta).2.2.getD k 0 =
      Real.sqrt (2 / 3) * ((a.getD k 0 - npMean a) / 2
        + (b.getD k 0 - npMean b) / 2 + (c.getD k 0 - npMean c) / 2) := by
    simp only [dq0]
    rw [rowCombo_getD _ _ _ _ _ _ k hlb hlc hka,
      demean_getD a k hk, demean_getD b k hkb, demean_getD c k hkc]
    ring
  refine ⟨hd, hq, h0, fun hbal => ?_⟩
  have hsum : a.sum + b.sum + c.sum = 0 := by
    rw [list_sum_eq_range_sum a, list_sum_eq_range_sum b, list_sum_eq_range_sum c,
      hb, hc, ← Finset.sum_add_distrib, ← Finset.sum_add_distrib]
    exact Finset.sum_eq_zero (fun j hj => hbal j (Finset.mem_range.mp hj))
  have hmean : npMean a + npMean b + npMean c = 0 := by
    unfold npMean
    rw [hb, hc, div_add_div_same, div_add_div_same, hsum, zero_div]
  have hinst : a.getD k 0 + b.getD k 0 + c.getD k 0 = 0 := hbal k hk
  rw [h0]
  linear_combination (Real.sqrt (2 / 3) / 2) * hinst - (Real.sqrt (2 / 3) / 2) * hmean

/-- Witness for C4 at the balanced concrete input `a = [1, -1]`, `b = [-1, 1]`,
`c = [0, 0]`, `theta = 0`, `k = 0`. -/
theorem C4_witness :
    ([(-1 : ℝ), 1].length = [(1 : ℝ), -1].length) ∧
    ([(0 : ℝ), 0].length = [(1 : ℝ), -1].length) ∧
    (0 < [(1 : ℝ), -1].length) ∧
    ((∀ j, j < [(1 : ℝ), -1].length →
        [(1 : ℝ), -1].getD j 0 + [(-1 : ℝ), 1].getD j 0 + [(0 : ℝ), 0].getD j 0 = 0) →
      (dq0 [(1 : ℝ), -1] [(-1 : ℝ), 1] [(0 : ℝ), 0] 0).2.2.getD 0 0 = 0) :=
  ⟨by norm_num, by norm_num, by norm_num,
    (C4_dq0_rotating_park [(1 : ℝ), -1] [(-1 : ℝ), 1] [(0 : ℝ), 0] 0 0
      (by norm_num) (by norm_num) (by norm_num)).2.2.2⟩

/-- CLAIM C7: `ipsa` forms the instantaneous power
`p = v_ll · (i_l − mean i_l)` elementwise, returns the frequency axis and
power spectrum of `p`, and when `norm` is true converts the power values to
normalized decibels; when `norm` is false the raw power spectrum is returned
unchanged. -/
theorem C7_ipsa_instantaneous_power (v_ll i_l : List ℝ) (fs : ℝ) (k : ℕ)
    (hlen : i_l.length = v_ll.length) (hk : k < v_ll.length) :
    (List.zipWith (fun a b => a * b) v_ll
        (i_l.map (fun t => t - npMean i_l))).getD k 0 =
      v_ll.getD k 0 * (i_l.getD k 0 - npMean i_l) ∧
    (ipsa v_ll i_l fs true).1 =
      (power_fft (List.zipWith (fun a b => a * b) v_ll
        (i_l.map (fun t => t - npMean i_l))) fs).1 ∧
    (ipsa v_ll i_l fs true).2 =
      decibel (power_fft (List.zipWith (fun a b => a * b) v_ll
        (i_l.map (fun t => t - npMean i_l))) fs).2 true ∧
    (ipsa v_ll i_l fs false).1 =
      (power_fft (List.zipWith (fun a b => a * b) v_ll
        (i_l.map (fun t => t - npMean i_l))) fs).1 ∧
    (ipsa v_ll i_l fs false).2 =
      (power_fft (List.zipWith (fun a b => a * b) v_ll
        (i_l.map (fun t => t - npMean i_l))) fs).2 := by
  have hki : k < i_l.length := hlen ▸ hk
  have hkm : k < (i_l.map (fun t => t - npMean i_l)).length := by simpa using hki
  refine ⟨?_, rfl, rfl, rfl, rfl⟩
  rw [getD_zipWith_of_lt _ _ _ _ _ 0 0 hk hkm, demean_getD i_l k hki]

/-- Witness for C7 at `v_ll = [1, 2]`, `i_l = [3, 4]`, `fs = 5`, `k = 0`. -/
theorem C7_witness :
    ([(3 : ℝ), 4].length = [(1 : ℝ), 2].length) ∧ (0 < [(1 : ℝ), 2].length) ∧
    ((List.zipWith (fun a b => a * b) [(1 : ℝ), 2]
        ([(3 : ℝ), 4].map (fun t => t - npMean [(3 : ℝ), 4]))).getD 0 0 =
      [(1 : ℝ), 2].getD 0 0 * ([(3 : ℝ), 4].getD 0 0 - npMean [(3 : ℝ), 4]) ∧
    (ipsa [(1 : ℝ), 2] [(3 : ℝ), 4] 5 true).1 =
      (power_fft (List.zipWith (fun a b => a * b) [(1 : ℝ), 2]
        ([(3 : ℝ), 4].map (fun t => t - npMean [(3 : ℝ), 4]))) 5).1 ∧
    (ipsa [(1 : ℝ), 2] [(3 : ℝ), 4] 5 true).2 =
      decibel (power_fft (List.zipWith (fun a b => a * b) [(1 : ℝ), 2]
        ([(3 : ℝ), 4].map (fun t => t - npMean [(3 : ℝ), 4]))) 5).2 true ∧
    (ipsa [(1 : ℝ), 2] [(3 : ℝ), 4] 5 false).1 =
      (power_fft (List.zipWith (fun a b => a * b) [(1 : ℝ), 2]
        ([(3 : ℝ), 4].map (fun t => t - npMean [(3 : ℝ), 4]))) 5).1 ∧
    (ipsa [(1 : ℝ), 2] [(3 : ℝ), 4] 5 false).2 =
      (power_fft (List.zipWith (fun a b => a * b) [(1 : ℝ), 2]
        ([(3 : ℝ), 4].map (fun t => t - npMean [(3 : ℝ), 4]))) 5).2) :=
  ⟨by norm_num, by norm_num,
    C7_ipsa_instantaneous_power [(1 : ℝ), 2] [(3 : ℝ), 4] 5 0 (by norm_num) (by norm_num)⟩

/-- The centered cross-product sum in `correlation`, as a `Finset.range` sum. -/
theorem corr_sum (x y : List ℝ) (h : y.length = x.length) :
    (List.zipWith (fun a b => a * b) (x.map (fun a => a - npMean x))
        (y.map (fun a => a - npMean y))).sum =
      ∑ k ∈ Finset.range x.length,
        (x.getD k 0 - npMean x) * (y.getD k 0 - npMean y) := by
  rw [sum_zipWith_eq _ _ _ (by simp [h]), List.length_map]
  refine Finset.sum_congr rfl (fun k hk => ?_)
  rw [Finset.mem_range] at hk
  rw [demean_getD x k hk, demean_getD y k (h ▸ hk)]

/-- A sum of self-products of centered values is positive when the sequence is
not constant. -/
theorem sum_sq_pos_of_not_constant (x : List ℝ)
    (hnc : ∃ i j, i < x.length ∧ j < x.length ∧ x.getD i 0 ≠ x.getD j 0) :
    0 < ∑ k ∈ Finset.range x.length,
        (x.getD k 0 - npMean x) * (x.getD k 0 - npMean x) := by
  obtain ⟨i, j, hi, hj, hne⟩ := hnc
  have key : ∃ m ∈ Finset.range x.length,
      0 < (x.getD m 0 - npMean x) * (x.getD m 0 - npMean x) := by
    by_cases hzi : x.getD i 0 - npMean x = 0
    · have hzj : x.getD j 0 - npMean x ≠ 0 := by
        intro h0
        exact hne (by linarith [sub_eq_zero.mp hzi, sub_eq_zero.mp h0])
      exact ⟨j, Finset.mem_range.mpr hj, mul_self_pos.mpr hzj⟩
    · exact ⟨i, Finset.mem_range.mpr hi, mul_self_pos.mpr hzi⟩
  exact Finset.sum_pos' (fun k _ => mul_self_nonneg _) key

/-- Bounding the normalized Pearson quotient by 1. -/
theorem abs_quot_le_one (Sxy Sxx Syy : ℝ) (hxx : 0 ≤ Sxx) (hcs : Sxy ^ 2 ≤ Sxx * Syy) :
    |Sxy / (Real.sqrt Sxx * Real.sqrt Syy)| ≤ 1 := by
  by_cases hD : Real.sqrt Sxx * Real.sqrt Syy = 0
  · rw [hD, div_zero, abs_zero]
    norm_num
  · have hDpos : 0 < Real.sqrt Sxx * Real.sqrt Syy :=
      lt_of_le_of_ne (mul_nonneg (Real.sqrt_nonneg _) (Real.sqrt_nonneg _)) (Ne.symm hD)
    rw [abs_div, abs_of_pos hDpos]
    rw [div_le_one hDpos]
    have habs : |Sxy| = Real.sqrt (Sxy ^ 2) := (Real.sqrt_sq_eq_abs _).symm
    rw [habs, ← Real.sqrt_mul hxx]
    exact Real.sqrt_le_sqrt hcs

/-- The sum of a negated list. -/
theorem sum_map_neg (x : List ℝ) : (x.map (fun t => -t)).sum = -x.sum := by
  induction x with
  | nil => simp
  | cons a t ih =>
      simp [ih]
      ring

/-- The mean of a negated list. -/
theorem npMean_map_neg (x : List ℝ) : npMean (x.map (fun t => -t)) = -npMean x := by
  unfold npMean
  rw [sum_map_neg, List.length_map, neg_div]

/-- Unfolding lemma for `correlation` (zeta-reduced). -/
theorem correlation_def (x y : List ℝ) :
    correlation x y =
      |(List.zipWith (fun a b => a * b) (x.map (fun a => a - npMean x))
          (y.map (fun a => a - npMean y))).sum /
        (Real.sqrt (List.zipWith (fun a b => a * b) (x.map (fun a => a - npMean x))
            (x.map (fun a => a - npMean x))).sum *
         Real.sqrt (List.zipWith (fun a b => a * b) (y.map (fun a => a - npMean y))
            (y.map (fun a => a - npMean y))).sum)| := rfl

/-- CLAIM C8: `correlation` is the absolute value of the Pearson correlation
coefficient, a scalar in `[0, 1]`; for every non-constant `x`,
`correlation x x = 1` and `correlation x (-x) = 1`. -/
theorem C8_correlation_abs_pearson (x y : List ℝ) (hxy : y.length = x.length) :
    (0 ≤ correlation x y ∧ correlation x y ≤ 1) ∧
    ((∃ i j, i < x.length ∧ j < x.length ∧ x.getD i 0 ≠ x.getD j 0) →
      correlation x x = 1 ∧ correlation x (x.map (fun t => -t)) = 1) := by
  constructor
  · constructor
    · exact abs_nonneg _
    · rw [correlation_def]
      rw [corr_sum x y hxy, corr_sum x x rfl, corr_sum y y rfl, hxy]
      apply abs_quot_le_one
      · exact Finset.sum_nonneg (fun k _ => mul_self_nonneg _)
      · have H := Finset.sum_mul_sq_le_sq_mul_sq (Finset.range x.length)
          (fun k => x.getD k 0 - npMean x) (fun k => y.getD k 0 - npMean y)
        simpa [pow_two] using H
  · intro hnc
    have hpos := sum_sq_pos_of_not_constant x hnc
    have hnegD : ∀ k, k < x.length →
        (x.map (fun t => -t)).getD k 0 = -(x.getD k 0) :=
      fun k hk => getD_map_of_lt _ x k 0 0 hk
    constructor
    · rw [correlation_def]
      rw [corr_sum x x rfl, Real.mul_self_sqrt hpos.le,
        div_self (ne_of_gt hpos), abs_one]
    · rw [correlation_def]
      rw [corr_sum x (x.map (fun t => -t)) (by simp),
        corr_sum x x rfl,
        corr_sum (x.map (fun t => -t)) (x.map (fun t => -t)) rfl]
      have e1 : ∑ k ∈ Finset.range x.length, (x.getD k 0 - npMean x) *
            ((x.map (fun t => -t)).getD k 0 - npMean (x.map (fun t => -t))) =
          -(∑ k ∈ Finset.range x.length,
            (x.getD k 0 - npMean x) * (x.getD k 0 - npMean x)) := by
        rw [← Finset.sum_neg_distrib]
        refine Finset.sum_congr rfl (fun k hk => ?_)
        rw [Finset.mem_range] at hk
        rw [hnegD k hk, npMean_map_neg]
        ring
      have e2 : ∑ k ∈ Finset.range (x.map (fun t => -t)).length,
            ((x.map (fun t => -t)).getD k 0 - npMean (x.map (fun t => -t))) *
            ((x.map (fun t => -t)).getD k 0 - npMean (x.map (fun t => -t))) =
          ∑ k ∈ Finset.range x.length,
            (x.getD k 0 - npMean x) * (x.getD k 0 - npMean x) := by
        rw [List.length_map]
        refine Finset.sum_congr rfl (fun k hk => ?_)
        rw [Finset.mem_range] at hk
        rw [hnegD k hk, npMean_map_neg]
        ring
      rw [e1, e2, Real.mul_self_sqrt hpos.le, neg_div, abs_neg,
        div_self (ne_of_gt hpos), abs_one]

/-- Witness for C8 at `x = [0, 1]`, `y = [1, 0]`. -/
theorem C8_witness :
    ([(1 : ℝ), 0].length = [(0 : ℝ), 1].length) ∧
    ((0 ≤ correlation [(0 : ℝ), 1] [(1 : ℝ), 0] ∧
      correlation [(0 : ℝ), 1] [(1 : ℝ), 0] ≤ 1) ∧
    ((∃ i j, i < [(0 : ℝ), 1].length ∧ j < [(0 : ℝ), 1].length ∧
        [(0 : ℝ), 1].getD i 0 ≠ [(0 : ℝ), 1].getD j 0) →
      correlation [(0 : ℝ), 1] [(0 : ℝ), 1] = 1 ∧
      correlation [(0 : ℝ), 1] ([(0 : ℝ), 1].map (fun t => -t)) = 1)) :=
  ⟨by norm_num, C8_correlation_abs_pearson [(0 : ℝ), 1] [(1 : ℝ), 0] (by norm_num)⟩

/-- The initial accumulator is below a `foldl max`. -/
theorem foldl_max_init_le (a : ℝ) (t : List ℝ) : a ≤ t.foldl max a := by
  induction t generalizing a with
  | nil => simp
  | cons b t ih => exact le_trans (le_max_left a b) (ih (max a b))

/-- Every member of the list is below a `foldl max`. -/
theorem mem_le_foldl_max (t : List ℝ) (a x : ℝ) (hx : x ∈ t) : x ≤ t.foldl max a := by
  induction t generalizing a with
  | nil => cases hx
  | cons b t ih =>
      rcases List.mem_cons.mp hx with h | h
      · subst h
        exact le_trans (le_max_right a x) (foldl_max_init_le _ t)
      · exact ih (max a b) h

/-- A `foldl max` is the accumulator or one of the list members. -/
theorem foldl_max_mem (t : List ℝ) (a : ℝ) : t.foldl max a = a ∨ t.foldl max a ∈ t := by
  induction t generalizing a with
  | nil => exact Or.inl rfl
  | cons b t ih =>
      rcases ih (max a b) with h | h
      · rcases max_choice a b with hm | hm
        · exact Or.inl (by rw [List.foldl_cons, h, hm])
        · exact Or.inr (by rw [List.foldl_cons, h, hm]; exact List.mem_cons_self b t)
      · exact Or.inr (List.mem_cons_of_mem b h)

/-- Every member of a list is at most its Python `max`. -/
theorem le_pyMax (l : List ℝ) (x : ℝ) (hx : x ∈ l) : x ≤ pyMax l := by
  match l with
  | [] => cases hx
  | a :: t =>
      show x ≤ t.foldl max a
      rcases List.mem_cons.mp hx with h | h
      · subst h
        exact foldl_max_init_le x t
      · exact mem_le_foldl_max t a x h

/-- The Python `max` of a nonempty list is one of its members. -/
theorem pyMax_mem (l : List ℝ) (h : l ≠ []) : pyMax l ∈ l := by
  match l with
  | [] => exact absurd rfl h
  | a :: t =>
      show t.foldl max a ∈ a :: t
      rcases foldl_max_mem t a with h1 | h1
      · rw [h1]
        exact List.mem_cons_self a t
      · exact List.mem_cons_of_mem a h1

/-- Unfolding `decibelF` with `normalize = true`. -/
theorem decibelF_true_eq (fft : List ℝ) :
    decibelF fft true =
      (fft.map (fun x => nfDiv x (pyMax fft))).map (fun v => nfScale20 (nfLog10 v)) := rfl

/-- Unfolding `decibelF` with `normalize = false`. -/
theorem decibelF_false_eq (fft : List ℝ) :
    decibelF fft false = (fft.map NF.fin).map (fun v => nfScale20 (nfLog10 v)) := rfl

/-- Entry `k` of the unnormalized float-model decibel conversion. -/
theorem decibelF_false_getD (fft : List ℝ) (k : ℕ) (hk : k < fft.length) :
    (decibelF fft false).getD k NF.nan =
      nfScale20 (nfLog10 (NF.fin (fft.getD k 0))) := by
  rw [decibelF_false_eq, List.map_map]
  exact getD_map_of_lt _ fft k NF.nan 0 hk

/-- Entry `k` of the normalized float-model decibel conversion. -/
theorem decibelF_true_getD (fft : List ℝ) (k : ℕ) (hk : k < fft.length) :
    (decibelF fft true).getD k NF.nan =
      nfScale20 (nfLog10 (nfDiv (fft.getD k 0) (pyMax fft))) := by
  rw [decibelF_true_eq, List.map_map]
  exact getD_map_of_lt _ fft k NF.nan 0 hk

/-- Equation lemma for `nfLog10` on a finite value. -/
theorem nfLog10_fin (x : ℝ) :
    nfLog10 (NF.fin x) =
      if 0 < x then NF.fin (Real.logb 10 x)
      else if x = 0 then NF.ninf else NF.nan := rfl

/-- Equation lemma for `nfDiv`. -/
theorem nfDiv_eq (x m : ℝ) :
    nfDiv x m =
      if m = 0 then (if x = 0 then NF.nan else if 0 < x then NF.pinf else NF.ninf)
      else NF.fin (x / m) := rfl

/-- CLAIM C6 (amended): `decibel` maps each value `m` to `20·log10 m` after
dividing by the sequence maximum when `normalize` is true; with all inputs
positive and `normalize` true the maximum output is exactly 0 dB; a zero or
negative input yields a non-finite output — without an exception — whenever
`normalize` is false, or `normalize` is true and the maximum is ≥ 0 (for
all-negative input with `normalize` true, the negative maximum makes ratios
positive, so outputs can be finite). -/
theorem C6_amended_decibel (fft : List ℝ) (hne : fft ≠ []) :
    (decibelF fft true).length = fft.length ∧
    (decibelF fft false).length = fft.length ∧
    (∀ k, k < fft.length →
      (decibelF fft false).getD k NF.nan =
        nfScale20 (nfLog10 (NF.fin (fft.getD k 0))) ∧
      (decibelF fft true).getD k NF.nan =
        nfScale20 (nfLog10 (nfDiv (fft.getD k 0) (pyMax fft)))) ∧
    ((∀ t ∈ fft, 0 < t) →
      NF.fin 0 ∈ decibelF fft true ∧
      (∀ w ∈ decibelF fft true, ∃ u, w = NF.fin u ∧ u ≤ 0)) ∧
    (∀ k, k < fft.length → fft.getD k 0 ≤ 0 →
      ((decibelF fft false).getD k NF.nan).isFinite = false ∧
      (0 ≤ pyMax fft →
        ((decibelF fft true).getD k NF.nan).isFinite = false)) := by
  refine ⟨?_, ?_, ?_, ?_, ?_⟩
  · rw [decibelF_true_eq]
    simp
  · rw [decibelF_false_eq]
    simp
  · intro k hk
    exact ⟨decibelF_false_getD fft k hk, decibelF_true_getD fft k hk⟩
  · intro hpos
    have hM : pyMax fft ∈ fft := pyMax_mem fft hne
    have hMpos : 0 < pyMax fft := hpos _ hM
    constructor
    · have h1 : nfScale20 (nfLog10 (nfDiv (pyMax fft) (pyMax fft))) = NF.fin 0 := by
        simp [nfDiv, hMpos.ne', div_self, nfLog10, nfScale20, Real.logb, Real.log_one]
      rw [decibelF_true_eq, ← h1]
      exact List.mem_map_of_mem _ (List.mem_map_of_mem _ hM)
    · intro w hw
      rw [decibelF_true_eq] at hw
      obtain ⟨v, hv, rfl⟩ := List.mem_map.mp hw
      obtain ⟨t, ht, rfl⟩ := List.mem_map.mp hv
      have htpos : 0 < t := hpos t ht
      have htM : t ≤ pyMax fft := le_pyMax fft t ht
      have hr : 0 < t / pyMax fft := div_pos htpos hMpos
      have hr1 : t / pyMax fft ≤ 1 := (div_le_one hMpos).mpr htM
      refine ⟨20 * Real.logb 10 (t / pyMax fft), ?_, ?_⟩
      · simp [nfDiv, hMpos.ne', nfLog10, hr, nfScale20]
      · have hlog : Real.logb 10 (t / pyMax fft) ≤ 0 :=
          Real.logb_nonpos (by norm_num) hr.le hr1
        linarith
  · intro k hk hle
    constructor
    · rw [decibelF_false_getD fft k hk, nfLog10_fin]
      rcases eq_or_lt_of_le hle with h | h
      · rw [h, if_neg (lt_irrefl 0), if_pos rfl]
        rfl
      · rw [if_neg (not_lt.mpr h.le), if_neg h.ne]
        rfl
    · intro hM0
      rw [decibelF_true_getD fft k hk, nfDiv_eq]
      by_cases hMz : pyMax fft = 0
      · rw [if_pos hMz]
        rcases eq_or_lt_of_le hle with h | h
        · rw [if_pos h]
          rfl
        · rw [if_neg h.ne, if_neg (not_lt.mpr h.le)]
          rfl
      · have hMpos : 0 < pyMax fft := lt_of_le_of_ne hM0 (Ne.symm hMz)
        have hratio : fft.getD k 0 / pyMax fft ≤ 0 :=
          div_nonpos_of_nonpos_of_nonneg hle hMpos.le
        rw [if_neg hMz, nfLog10_fin]
        rcases eq_or_lt_of_le hratio with h | h
        · rw [h, if_neg (lt_irrefl 0), if_pos rfl]
          rfl
        · rw [if_neg (not_lt.mpr h.le), if_neg h.ne]
          rfl

/-- CLAIM C6 counterexample: on the all-negative input `[-1]` with
`normalize = true`, `decibel` divides by the negative maximum `-1`, giving the
ratio `1`, and returns the finite value `0.0` — not a non-finite value as the
claim requires for negative inputs. -/
theorem C6_counterexample_negative_input_finite_output :
    decibelF [(-1 : ℝ)] true = [NF.fin 0] ∧
    ((decibelF [(-1 : ℝ)] true).getD 0 NF.nan).isFinite = true := by
  have hM : pyMax [(-1 : ℝ)] = -1 := rfl
  have h : decibelF [(-1 : ℝ)] true = [NF.fin 0] := by
    rw [decibelF_true_eq]
    norm_num [hM, nfDiv, nfLog10, nfScale20, Real.logb, Real.log_one]
  refine ⟨h, ?_⟩
  rw [h]
  rfl

/-- Witness for the amended C6 at the concrete input `[1]`. -/
theorem C6_witness :
    ([(1 : ℝ)] ≠ []) ∧
    ((decibelF [(1 : ℝ)] true).length = [(1 : ℝ)].length ∧
    (decibelF [(1 : ℝ)] false).length = [(1 : ℝ)].length ∧
    (∀ k, k < [(1 : ℝ)].length →
      (decibelF [(1 : ℝ)] false).getD k NF.nan =
        nfScale20 (nfLog10 (NF.fin ([(1 : ℝ)].getD k 0))) ∧
      (decibelF [(1 : ℝ)] true).getD k NF.nan =
        nfScale20 (nfLog10 (nfDiv ([(1 : ℝ)].getD k 0) (pyMax [(1 : ℝ)])))) ∧
    ((∀ t ∈ [(1 : ℝ)], 0 < t) →
      NF.fin 0 ∈ decibelF [(1 : ℝ)] true ∧
      (∀ w ∈ decibelF [(1 : ℝ)] true, ∃ u, w = NF.fin u ∧ u ≤ 0)) ∧
    (∀ k, k < [(1 : ℝ)].length → [(1 : ℝ)].getD k 0 ≤ 0 →
      ((decibelF [(1 : ℝ)] false).getD k NF.nan).isFinite = false ∧
      (0 ≤ pyMax [(1 : ℝ)] →
        ((decibelF [(1 : ℝ)] true).getD k NF.nan).isFinite = false))) :=
  ⟨by simp, C6_amended_decibel [(1 : ℝ)] (by simp)⟩
